import Mathlib

/-!
Verification of `plugins/cmd2_ext_test/tasks.py`.

The file under study is an `invoke` task file: a shared best-effort removal
helper `rmrf` plus a collection of `clean.*` tasks that delete cache and build
artifacts, and packaging tasks.  We embed the filesystem-affecting parts
shallowly:

* a filesystem is a finite list of entries; a path is its list of components
  (the Python code handles paths as strings; splitting on the separator is
  injective on well-formed paths, and all paths manipulated by the tasks are
  built by joining components, so the component-list view is faithful);
* `shutil.rmtree` and `os.remove` are modelled as total functions returning
  `Except OSError FS`; an entry carries a `locked` flag modelling lack of
  deletion permission (the behaviour of the source on permission errors is the
  subject of the suppression-asymmetry analysis; on a `locked` obstruction
  `rmtree` is modelled as failing without partial deletion);
* `rmrf` threads the filesystem state through the loop and records an event
  trace (log lines and removal attempts) plus the first escaping error.
-/

namespace Tasks

/-- A filesystem path, as its list of components. -/
abbrev Path := List String

/-- Kind of a filesystem entry. -/
inductive EntryKind
  | file
  | dir
deriving DecidableEq, Repr

/-- One filesystem entry.  `locked` models an entry the process lacks
permission to delete; claims about successful cleanup quantify over
filesystems without locked entries (`benign`). -/
structure Entry where
  path : Path
  kind : EntryKind
  locked : Bool
deriving DecidableEq, Repr

/-- A filesystem: a finite list of entries. -/
abbrev FS := List Entry

/-- The OS errors that the modelled calls can raise. -/
inductive OSError
  | fileNotFound
  | notADirectory
  | isADirectory
  | permissionDenied
deriving DecidableEq, Repr

/-- Look up the entry at a path. -/
def findEntry (fs : FS) (p : Path) : Option Entry :=
  fs.find? (fun e => decide (e.path = p))

/-- A filesystem with no permission obstructions: every entry is deletable. -/
def benign (fs : FS) : Prop := ∀ e ∈ fs, e.locked = false

instance (fs : FS) : Decidable (benign fs) := by
  unfold benign
  infer_instance

/-- Model of `shutil.rmtree(path)` without `ignore_errors`: fails with
`FileNotFoundError` if the path is absent, with `NotADirectoryError` if it is
a file, with `PermissionError` if anything in the subtree is locked; otherwise
removes the directory entry and everything below it. -/
def rmtree (fs : FS) (p : Path) : Except OSError FS :=
  match findEntry fs p with
  | none => Except.error OSError.fileNotFound
  | some e =>
    match e.kind with
    | EntryKind.file => Except.error OSError.notADirectory
    | EntryKind.dir =>
      if (fs.filter (fun q => decide (p <+: q.path))).any (fun q => q.locked) then
        Except.error OSError.permissionDenied
      else
        Except.ok (fs.filter (fun q => !(decide (p <+: q.path))))

/-- Model of `os.remove(path)`: fails with `FileNotFoundError` if the path is absent,
with `IsADirectoryError` if it is a directory, with `PermissionError` if the
file is locked; otherwise removes the single file entry. -/
def osRemove (fs : FS) (p : Path) : Except OSError FS :=
  match findEntry fs p with
  | none => Except.error OSError.fileNotFound
  | some e =>
    match e.kind with
    | EntryKind.dir => Except.error OSError.isADirectory
    | EntryKind.file =>
      if e.locked then
        Except.error OSError.permissionDenied
      else
        Except.ok (fs.filter (fun q => !(decide (q.path = p))))

/-- Model of `shutil.rmtree(item, ignore_errors=True)`: every failure of the removal
attempt is suppressed, leaving the filesystem as it was. -/
def rmtreeStep (fs : FS) (p : Path) : FS :=
  match rmtree fs p with
  | Except.ok fs1 => fs1
  | Except.error _ => fs

/-- One iteration of the `rmrf` loop after the optional print: the
`shutil.rmtree(item, ignore_errors=True)` call followed by
`try: os.remove(item) except FileNotFoundError: pass`.  Returns the resulting
filesystem and the error escaping to the caller, if any. -/
def removeItem (fs : FS) (p : Path) : FS × Option OSError :=
  let fs1 := rmtreeStep fs p
  match osRemove fs1 p with
  | Except.ok fs2 => (fs2, none)
  | Except.error OSError.fileNotFound => (fs1, none)
  | Except.error e => (fs1, some e)

/-- Render a path the way the source formats it into its log message. -/
def pathStr (p : Path) : String := String.intercalate "/" p

/-- Observable events of a run: a printed log line, or the start of a removal
attempt on a path. -/
inductive Event
  | logLine (s : String)
  | attempt (p : Path)
deriving DecidableEq, Repr

/-- Outcome of running `rmrf`: final filesystem, event trace in order, and the
error that escaped to the caller (if any). -/
structure RunResult where
  fs : FS
  events : List Event
  err : Option OSError
deriving DecidableEq, Repr

/-- The `for item in items` loop of `rmrf`: print (if verbose), then attempt
removal; an escaping error aborts the loop. -/
def rmrfLoop (verbose : Bool) (fs : FS) : List Path → RunResult
  | [] => ⟨fs, [], none⟩
  | p :: rest =>
    let l := if verbose then [Event.logLine ("Removing " ++ pathStr p)] else []
    match removeItem fs p with
    | (fs1, some e) => ⟨fs1, l ++ [Event.attempt p], some e⟩
    | (fs1, none) =>
      let r := rmrfLoop verbose fs1 rest
      ⟨r.fs, l ++ [Event.attempt p] ++ r.events, r.err⟩

/-- The argument of `rmrf`: a single path string or a sequence of paths
(the `isinstance(items, str)` check). -/
inductive Items
  | single (p : Path)
  | many (l : List Path)

/-- The normalisation at the top of `rmrf`:
`if isinstance(items, str): items = [items]`. -/
def normalizeItems : Items → List Path
  | Items.single p => [p]
  | Items.many l => l

/-- Model of `rmrf(items, verbose=True)`: normalise the argument, then loop. -/
def rmrf (items : Items) (verbose : Bool) (fs : FS) : RunResult :=
  rmrfLoop verbose fs (normalizeItems items)

/-! ### The tasks

`TASK_ROOT = pathlib.Path(__file__).resolve().parent` is a fixed absolute
path determined by where the file is installed; the task definitions below
take it as the parameter `taskRoot`.  Every task body is wrapped in
`with context.cd(TASK_ROOT_STR):`. -/

/-- Modelled from the spec: `invoke.Context.cd` belongs to the external
task-runner collaborator, whose code is not part of this repository; the spec
states "All tasks execute relative to a fixed root directory resolved from
this file location", so inside a `with context.cd(target)` block the working
directory of the body is `target`, whatever the working directory of the
invoker was. -/
def contextCd (target : Path) (invokerCwd : Path) (body : Path → RunResult) : RunResult :=
  body target

/-- Resolve a list of relative paths against a working directory. -/
def resolveAt (cwd : Path) (ps : List Path) : List Path :=
  ps.map (fun p => cwd ++ p)

/-- The literal list of the source: `.pytest_cache`, `.cache`, `htmlcov`, `.coverage`. -/
def pytest_clean_dirs : List Path :=
  [[".pytest_cache"], [".cache"], ["htmlcov"], [".coverage"]]

/-- Task `clean.pytest` (`pytest_clean`). -/
def pytest_clean (taskRoot invokerCwd : Path) (fs : FS) : RunResult :=
  contextCd taskRoot invokerCwd
    (fun wd => rmrf (Items.many (resolveAt wd pytest_clean_dirs)) true fs)

/-- The literal list of the source: `.mypy_cache`, `dmypy.json`, `dmypy.sock`. -/
def mypy_clean_dirs : List Path :=
  [[".mypy_cache"], ["dmypy.json"], ["dmypy.sock"]]

/-- Task `clean.mypy` (`mypy_clean`). -/
def mypy_clean (taskRoot invokerCwd : Path) (fs : FS) : RunResult :=
  contextCd taskRoot invokerCwd
    (fun wd => rmrf (Items.many (resolveAt wd mypy_clean_dirs)) true fs)

/-- The constant `BUILDDIR`, the relative path `build`. -/
def BUILDDIR : Path := ["build"]

/-- The constant `DISTDIR`, the relative path `dist`. -/
def DISTDIR : Path := ["dist"]

/-- Task `clean.build` (`build_clean`); note the source passes the single
string `BUILDDIR`, not a list. -/
def build_clean (taskRoot invokerCwd : Path) (fs : FS) : RunResult :=
  contextCd taskRoot invokerCwd
    (fun wd => rmrf (Items.single (wd ++ BUILDDIR)) true fs)

/-- Task `clean.dist` (`dist_clean`); also passes a single string. -/
def dist_clean (taskRoot invokerCwd : Path) (fs : FS) : RunResult :=
  contextCd taskRoot invokerCwd
    (fun wd => rmrf (Items.single (wd ++ DISTDIR)) true fs)

/-- The name of a direct child of `cwd`, if the given path is one. -/
def childName (cwd : Path) (p : Path) : Option String :=
  if cwd.isPrefixOf p && p.length == cwd.length + 1 then p.getLast? else none

/-- Model of `os.listdir(os.curdir)`: names of the entries directly inside `cwd`. -/
def listdir (fs : FS) (cwd : Path) : List String :=
  fs.filterMap (fun e => childName cwd e.path)

/-- The Python `str.endswith`, on the underlying character list (the Lean
`String.endsWith` is not kernel-reducible). -/
def strEndsWith (s suffix : String) : Bool :=
  List.isSuffixOf suffix.data s.data

/-- The removal targets collected by `eggs_clean`: the set starts as
the set containing only `.eggs` and gains every listed name ending in
`.egg-info` or `.egg`
(the Python `set` is modelled as a list in insertion order; which order the
set iterates in does not affect which entries end up removed). -/
def eggs_targets (fs : FS) (cwd : Path) : List Path :=
  (cwd ++ [".eggs"]) ::
    ((listdir fs cwd).filter
        (fun n => strEndsWith n ".egg-info" || strEndsWith n ".egg")).map
      (fun n => cwd ++ [n])

/-- Task `clean.eggs` (`eggs_clean`). -/
def eggs_clean (taskRoot invokerCwd : Path) (fs : FS) : RunResult :=
  contextCd taskRoot invokerCwd
    (fun wd => rmrf (Items.many (eggs_targets fs wd)) true fs)

/-- The removal targets collected by the `os.walk` scan of `pycache_clean`: every
directory strictly below `cwd` whose last component is `__pycache__`. -/
def pycache_targets (fs : FS) (cwd : Path) : List Path :=
  (fs.filter (fun e =>
      decide (e.kind = EntryKind.dir) && cwd.isPrefixOf e.path &&
        decide (cwd.length < e.path.length) &&
        decide (e.path.getLast? = some "__pycache__"))).map
    (fun e => e.path)

/-- Task `clean.pycache` (`pycache_clean`): one plain log line, then
`rmrf(dirs, verbose=False)`. -/
def pycache_clean (taskRoot invokerCwd : Path) (fs : FS) : RunResult :=
  contextCd taskRoot invokerCwd
    (fun wd =>
      let r := rmrf (Items.many (pycache_targets fs wd)) false fs
      ⟨r.fs, Event.logLine "Removing __pycache__ directories" :: r.events, r.err⟩)

/-- Task `clean.all` (`clean_all`): its body is `pass`. -/
def clean_all (taskRoot invokerCwd : Path) (fs : FS) : RunResult :=
  ⟨fs, [], none⟩

/-! ### The task registry

`invoke.Collection` is modelled as an ordered association list; the `pre`
list of a task is recorded by the registered names of its prerequisites. -/

/-- A registered task: its Python function name, its prerequisite list (by
registered name), and whether it is the namespace default. -/
structure TaskDef where
  name : String
  pre : List String
  dflt : Bool
deriving DecidableEq, Repr

/-- An `invoke.Collection`: tasks in registration order. -/
structure Collection where
  tasks : List (String × TaskDef)
deriving DecidableEq, Repr

/-- Model of `Collection.add_task(task, name)`. -/
def Collection.add_task (c : Collection) (t : TaskDef) (n : String) : Collection :=
  ⟨c.tasks ++ [(n, t)]⟩

def pytest_clean_def : TaskDef := ⟨"pytest_clean", [], false⟩

def mypy_clean_def : TaskDef := ⟨"mypy_clean", [], false⟩

def build_clean_def : TaskDef := ⟨"build_clean", [], false⟩

def dist_clean_def : TaskDef := ⟨"dist_clean", [], false⟩

def eggs_clean_def : TaskDef := ⟨"eggs_clean", [], false⟩

def pycache_clean_def : TaskDef := ⟨"pycache_clean", [], false⟩

/-- The `clean` namespace as built by the module body, one `add_task` at a
time, in source order. -/
def namespace_clean1 : Collection := Collection.add_task ⟨[]⟩ pytest_clean_def "pytest"

def namespace_clean2 : Collection := namespace_clean1.add_task mypy_clean_def "mypy"

def namespace_clean3 : Collection := namespace_clean2.add_task build_clean_def "build"

def namespace_clean4 : Collection := namespace_clean3.add_task dist_clean_def "dist"

def namespace_clean5 : Collection := namespace_clean4.add_task eggs_clean_def "eggs"

def namespace_clean6 : Collection := namespace_clean5.add_task pycache_clean_def "pycache"

/-- Model of the decorator call `@invoke.task(pre=list(namespace_clean.tasks.values()), default=True)`:
the prerequisites of `clean_all` are whatever is registered in the clean namespace
at that point. -/
def clean_all_def : TaskDef :=
  ⟨"clean_all", namespace_clean6.tasks.map Prod.fst, true⟩

/-- The clean namespace after the final add of `clean_all` under the name `all`. -/
def namespace_clean_final : Collection := namespace_clean6.add_task clean_all_def "all"

/-- Dispatch a registered clean-namespace name to its task body. -/
def cleanTaskRun (n : String) (taskRoot invokerCwd : Path) (fs : FS) : RunResult :=
  if n = "pytest" then pytest_clean taskRoot invokerCwd fs
  else if n = "mypy" then mypy_clean taskRoot invokerCwd fs
  else if n = "build" then build_clean taskRoot invokerCwd fs
  else if n = "dist" then dist_clean taskRoot invokerCwd fs
  else if n = "eggs" then eggs_clean taskRoot invokerCwd fs
  else if n = "pycache" then pycache_clean taskRoot invokerCwd fs
  else ⟨fs, [], none⟩

/-- Modelled from the spec: the external task-runner executes the
prerequisites in order before its body; this threads the filesystem through a
list of clean-namespace tasks. -/
def runTasks (taskRoot invokerCwd : Path) : List String → FS → FS
  | [], fs => fs
  | n :: rest, fs =>
    runTasks taskRoot invokerCwd rest (cleanTaskRun n taskRoot invokerCwd fs).fs

/-- Invoking `clean.all`: its prerequisite list runs first, then its `pass`
body. -/
def run_clean_all (taskRoot invokerCwd : Path) (fs : FS) : FS :=
  (clean_all taskRoot invokerCwd (runTasks taskRoot invokerCwd clean_all_def.pre fs)).fs

/-! ### Registry mutation performed by task bodies -/

/-- The fifteen tasks defined in the file. -/
inductive TaskId
  | pytest
  | pytest_junit
  | pytest_clean
  | mypy
  | mypy_clean
  | build_clean
  | dist_clean
  | eggs_clean
  | pycache_clean
  | clean_all
  | sdist
  | wheel
  | pypi
  | pypi_test
  | flake8
deriving DecidableEq, Repr

def mypy_def : TaskDef := ⟨"mypy", [], false⟩

/-- A mutation of the shared task registry. -/
inductive RegistryOp
  | addTask (t : TaskDef) (n : String)
deriving DecidableEq, Repr

/-- The registry operations each task body performs when it executes.  Read
off the source: only the body of `mypy` contains a registration call —
`namespace.add_task(mypy)` sits inside the function, after
`context.run("mypy main.py")`; every other body only runs a command or
deletes files. -/
def bodyRegistryOps : TaskId → List RegistryOp
  | TaskId.mypy => [RegistryOp.addTask mypy_def "mypy"]
  | _ => []

def applyRegistryOp (c : Collection) : RegistryOp → Collection
  | RegistryOp.addTask t n => c.add_task t n

def applyRegistryOps (c : Collection) (ops : List RegistryOp) : Collection :=
  ops.foldl applyRegistryOp c

/-! ### Computation lemmas for the removal primitives -/

theorem rmtree_ok_eq {fs : FS} {p : Path} {fs1 : FS} (h : rmtree fs p = Except.ok fs1) :
    fs1 = fs.filter (fun q => !(decide (p <+: q.path))) := by
  unfold rmtree at h
  split at h
  · exact absurd h (by simp)
  · split at h
    · exact absurd h (by simp)
    · split at h
      · exact absurd h (by simp)
      · exact (Except.ok.inj h).symm

theorem osRemove_ok_eq {fs : FS} {p : Path} {fs1 : FS} (h : osRemove fs p = Except.ok fs1) :
    fs1 = fs.filter (fun q => !(decide (q.path = p))) := by
  unfold osRemove at h
  split at h
  · exact absurd h (by simp)
  · split at h
    · exact absurd h (by simp)
    · split at h
      · exact absurd h (by simp)
      · exact (Except.ok.inj h).symm

theorem rmtreeStep_sublist (fs : FS) (p : Path) : (rmtreeStep fs p).Sublist fs := by
  unfold rmtreeStep
  cases h : rmtree fs p with
  | ok fs1 =>
    show List.Sublist fs1 fs
    rw [rmtree_ok_eq h]
    exact List.filter_sublist fs
  | error e =>
    show List.Sublist fs fs
    exact List.Sublist.refl fs

theorem removeItem_fst_sublist (fs : FS) (p : Path) : ((removeItem fs p).1).Sublist fs := by
  have h1 := rmtreeStep_sublist fs p
  cases h : osRemove (rmtreeStep fs p) p with
  | ok fs2 =>
    have h2 : (removeItem fs p).1 = fs2 := by simp [removeItem, h]
    rw [h2, osRemove_ok_eq h]
    exact List.Sublist.trans (List.filter_sublist _) h1
  | error e =>
    have h2 : (removeItem fs p).1 = rmtreeStep fs p := by
      cases e <;> simp [removeItem, h]
    rw [h2]
    exact h1

/-- Anything deleted by one loop iteration lies at or below the attempted path. -/
theorem removeItem_deleted {fs : FS} {p : Path} {e : Entry} (he : e ∈ fs)
    (hd : e ∉ (removeItem fs p).1) : p <+: e.path := by
  by_contra hnp
  apply hd
  have h1 : e ∈ rmtreeStep fs p := by
    unfold rmtreeStep
    cases h : rmtree fs p with
    | ok fs1 =>
      show e ∈ fs1
      rw [rmtree_ok_eq h]
      exact List.mem_filter.mpr ⟨he, by simpa using hnp⟩
    | error _ => exact he
  cases h : osRemove (rmtreeStep fs p) p with
  | ok fs2 =>
    have h2 : (removeItem fs p).1 = fs2 := by simp [removeItem, h]
    rw [h2, osRemove_ok_eq h]
    refine List.mem_filter.mpr ⟨h1, ?_⟩
    have hne : e.path ≠ p := by
      intro hh
      exact hnp (by rw [hh])
    simpa using hne
  | error er =>
    have h2 : (removeItem fs p).1 = rmtreeStep fs p := by
      cases er <;> simp [removeItem, h]
    rw [h2]
    exact h1

theorem findEntry_eq_none {fs : FS} {p : Path} (h : ∀ q ∈ fs, q.path ≠ p) :
    findEntry fs p = none := by
  unfold findEntry
  rw [List.find?_eq_none]
  intro x hx
  simpa using h x hx

theorem findEntry_none_elim {fs : FS} {p : Path} (h : findEntry fs p = none) :
    ∀ q ∈ fs, q.path ≠ p := by
  unfold findEntry at h
  rw [List.find?_eq_none] at h
  intro q hq
  simpa using h q hq

theorem removeItem_of_absent {fs : FS} {p : Path} (h : findEntry fs p = none) :
    removeItem fs p = (fs, none) := by
  have h1 : rmtree fs p = Except.error OSError.fileNotFound := by
    unfold rmtree; rw [h]
  have h2 : rmtreeStep fs p = fs := by
    unfold rmtreeStep; rw [h1]
  have h3 : osRemove fs p = Except.error OSError.fileNotFound := by
    unfold osRemove; rw [h]
  simp only [removeItem, h2, h3]

theorem rmtree_of_dir {fs : FS} {p : Path} {e : Entry} (hf : findEntry fs p = some e)
    (hk : e.kind = EntryKind.dir) (hb : ∀ q ∈ fs, q.locked = false) :
    rmtree fs p = Except.ok (fs.filter (fun q => !(decide (p <+: q.path)))) := by
  have hl : (fs.filter (fun q => decide (p <+: q.path))).any (fun q => q.locked) = false := by
    rw [List.any_eq_false]
    intro x hx
    simp [hb x (List.mem_filter.mp hx).1]
  simp [rmtree, hf, hk, hl]

theorem filtered_no_target {fs : FS} {p : Path} :
    ∀ q ∈ fs.filter (fun q => !(decide (p <+: q.path))), q.path ≠ p := by
  intro q hq hqp
  have h2 := (List.mem_filter.mp hq).2
  rw [hqp] at h2
  simp [List.prefix_refl] at h2

theorem removeItem_of_dir {fs : FS} {p : Path} {e : Entry} (hf : findEntry fs p = some e)
    (hk : e.kind = EntryKind.dir) (hb : ∀ q ∈ fs, q.locked = false) :
    removeItem fs p = (fs.filter (fun q => !(decide (p <+: q.path))), none) := by
  have h1 := rmtree_of_dir hf hk hb
  have h2 : rmtreeStep fs p = fs.filter (fun q => !(decide (p <+: q.path))) := by
    unfold rmtreeStep; rw [h1]
  have h3 : findEntry (fs.filter (fun q => !(decide (p <+: q.path)))) p = none :=
    findEntry_eq_none filtered_no_target
  have h4 : osRemove (fs.filter (fun q => !(decide (p <+: q.path)))) p =
      Except.error OSError.fileNotFound := by
    unfold osRemove; rw [h3]
  simp only [removeItem, h2, h4]

theorem removeItem_of_file {fs : FS} {p : Path} {e : Entry} (hf : findEntry fs p = some e)
    (hk : e.kind = EntryKind.file) (hl : e.locked = false) :
    removeItem fs p = (fs.filter (fun q => !(decide (q.path = p))), none) := by
  have h1 : rmtree fs p = Except.error OSError.notADirectory := by
    simp [rmtree, hf, hk]
  have h2 : rmtreeStep fs p = fs := by
    unfold rmtreeStep; rw [h1]
  have h3 : osRemove fs p = Except.ok (fs.filter (fun q => !(decide (q.path = p)))) := by
    simp [osRemove, hf, hk, hl]
  simp only [removeItem, h2, h3]

/-- On a filesystem without locked entries, one iteration never raises and
leaves no entry at the attempted path. -/
theorem removeItem_benign {fs : FS} (hb : benign fs) (p : Path) :
    (removeItem fs p).2 = none ∧ ∀ q ∈ (removeItem fs p).1, q.path ≠ p := by
  cases hf : findEntry fs p with
  | none =>
    rw [removeItem_of_absent hf]
    exact ⟨rfl, findEntry_none_elim hf⟩
  | some e =>
    cases hk : e.kind with
    | dir =>
      rw [removeItem_of_dir hf hk hb]
      exact ⟨rfl, filtered_no_target⟩
    | file =>
      have he : e ∈ fs := List.mem_of_find?_eq_some hf
      rw [removeItem_of_file hf hk (hb e he)]
      refine ⟨rfl, ?_⟩
      intro q hq hqp
      have h2 := (List.mem_filter.mp hq).2
      simp [hqp] at h2

/-! ### Behaviour of the `rmrf` loop -/

theorem benign_sublist {fs fs1 : FS} (hb : benign fs) (h : fs1.Sublist fs) : benign fs1 :=
  fun e he => hb e (List.Sublist.mem he h)

/-- Master lemma on a filesystem without locked entries: the loop raises
nothing, only deletes, preserves benignity, leaves no entry at any listed
path, and its event trace is exactly one optional log line followed by one
removal attempt per listed path, in order. -/
theorem rmrfLoop_spec (verbose : Bool) :
    ∀ (items : List Path) (fs : FS), benign fs →
      (rmrfLoop verbose fs items).err = none ∧
      ((rmrfLoop verbose fs items).fs).Sublist fs ∧
      benign ((rmrfLoop verbose fs items).fs) ∧
      (∀ p ∈ items, ∀ q ∈ (rmrfLoop verbose fs items).fs, q.path ≠ p) ∧
      (rmrfLoop verbose fs items).events =
        items.flatMap (fun p =>
          (if verbose then [Event.logLine ("Removing " ++ pathStr p)] else []) ++
            [Event.attempt p]) := by
  intro items
  induction items with
  | nil =>
    intro fs hb
    refine ⟨rfl, List.Sublist.refl fs, hb, ?_, rfl⟩
    intro p hp
    exact absurd hp (List.not_mem_nil p)
  | cons p rest ih =>
    intro fs hb
    have hsub1 := removeItem_fst_sublist fs p
    have hnone := (removeItem_benign hb p).1
    have hq := (removeItem_benign hb p).2
    have hb1 : benign (removeItem fs p).1 := benign_sublist hb hsub1
    have hpair : removeItem fs p = ((removeItem fs p).1, none) := by
      rw [← hnone]
    obtain ⟨ih1, ih2, ih3, ih4, ih5⟩ := ih (removeItem fs p).1 hb1
    have hloop : rmrfLoop verbose fs (p :: rest) =
        ⟨(rmrfLoop verbose (removeItem fs p).1 rest).fs,
          (if verbose then [Event.logLine ("Removing " ++ pathStr p)] else []) ++
            [Event.attempt p] ++ (rmrfLoop verbose (removeItem fs p).1 rest).events,
          (rmrfLoop verbose (removeItem fs p).1 rest).err⟩ := by
      rw [rmrfLoop, hpair]
    rw [hloop]
    refine ⟨ih1, List.Sublist.trans ih2 hsub1, ih3, ?_, ?_⟩
    · intro p' hp' q hqm
      rcases List.mem_cons.mp hp' with h | h
      · subst h
        exact hq q (List.Sublist.mem hqm ih2)
      · exact ih4 p' h q hqm
    · rw [List.flatMap_cons, ih5]

/-- Frame lemma, with no benignity assumption: every entry the loop deletes
lies at or below one of the listed paths. -/
theorem rmrfLoop_frame (verbose : Bool) :
    ∀ (items : List Path) (fs : FS) (e : Entry), e ∈ fs →
      e ∉ (rmrfLoop verbose fs items).fs → ∃ p ∈ items, p <+: e.path := by
  intro items
  induction items with
  | nil =>
    intro fs e he hd
    exact absurd he hd
  | cons p rest ih =>
    intro fs e he hd
    cases hsnd : (removeItem fs p).2 with
    | some er =>
      have hpair : removeItem fs p = ((removeItem fs p).1, some er) := by
        rw [← hsnd]
      have hloop : rmrfLoop verbose fs (p :: rest) =
          ⟨(removeItem fs p).1,
            (if verbose then [Event.logLine ("Removing " ++ pathStr p)] else []) ++
              [Event.attempt p], some er⟩ := by
        rw [rmrfLoop, hpair]
      rw [hloop] at hd
      exact ⟨p, List.mem_cons_self p rest, removeItem_deleted he hd⟩
    | none =>
      have hpair : removeItem fs p = ((removeItem fs p).1, none) := by
        rw [← hsnd]
      have hloop : rmrfLoop verbose fs (p :: rest) =
          ⟨(rmrfLoop verbose (removeItem fs p).1 rest).fs,
            (if verbose then [Event.logLine ("Removing " ++ pathStr p)] else []) ++
              [Event.attempt p] ++ (rmrfLoop verbose (removeItem fs p).1 rest).events,
            (rmrfLoop verbose (removeItem fs p).1 rest).err⟩ := by
        rw [rmrfLoop, hpair]
      rw [hloop] at hd
      by_cases h1 : e ∈ (removeItem fs p).1
      · obtain ⟨p', hp', hpre⟩ := ih (removeItem fs p).1 e h1 hd
        exact ⟨p', List.mem_cons_of_mem p hp', hpre⟩
      · exact ⟨p, List.mem_cons_self p rest, removeItem_deleted he h1⟩

/-! ### Helper lemmas for the claim theorems -/

theorem flatMap_single {α β : Type} (l : List α) (f : α → β) :
    (l.flatMap fun p => [f p]) = l.map f := by
  induction l with
  | nil => rfl
  | cons a l ih => simp [ih]

theorem frame_of_targets {verbose : Bool} {root : Path} {ts : List Path}
    (hts : ∀ t ∈ ts, root <+: t ∧ root.length < t.length) {fs : FS} {e : Entry}
    (he : e ∈ fs) (hd : e ∉ (rmrfLoop verbose fs ts).fs) :
    root <+: e.path ∧ root ≠ e.path := by
  obtain ⟨t, htm, htp⟩ := rmrfLoop_frame verbose ts fs e he hd
  obtain ⟨hr, hl⟩ := hts t htm
  refine ⟨List.IsPrefix.trans hr htp, ?_⟩
  intro heq
  have hle := List.IsPrefix.length_le htp
  rw [← heq] at hle
  exact absurd (Nat.lt_of_lt_of_le hl hle) (Nat.lt_irrefl _)

theorem resolveAt_targets (root : Path) (ds : List Path) (hds : ∀ d ∈ ds, d ≠ []) :
    ∀ t ∈ resolveAt root ds, root <+: t ∧ root.length < t.length := by
  intro t ht
  obtain ⟨d, hd, rfl⟩ := List.mem_map.mp ht
  refine ⟨List.prefix_append root d, ?_⟩
  rw [List.length_append]
  have hdl : d.length ≠ 0 := fun h => hds d hd (List.eq_nil_of_length_eq_zero h)
  omega

theorem eggs_targets_bound (fs : FS) (root : Path) :
    ∀ t ∈ eggs_targets fs root, root <+: t ∧ root.length < t.length := by
  intro t ht
  rcases List.mem_cons.mp ht with h | h
  · subst h
    refine ⟨List.prefix_append _ _, ?_⟩
    simp [List.length_append]
  · obtain ⟨n, hn, rfl⟩ := List.mem_map.mp h
    refine ⟨List.prefix_append _ _, ?_⟩
    simp [List.length_append]

theorem isPrefixOf_eq_true {l1 l2 : Path} : l1.isPrefixOf l2 = true ↔ l1 <+: l2 :=
  List.isPrefixOf_iff_prefix

theorem pycache_targets_bound (fs : FS) (root : Path) :
    ∀ t ∈ pycache_targets fs root, root <+: t ∧ root.length < t.length := by
  intro t ht
  obtain ⟨e, he, rfl⟩ := List.mem_map.mp ht
  have h2 := (List.mem_filter.mp he).2
  simp only [Bool.and_eq_true, decide_eq_true_eq] at h2
  exact ⟨isPrefixOf_eq_true.mp h2.1.1.2, h2.1.2⟩

/-! ### The claims -/

/-- C2: for every input (any mix of existing files, existing directories and
nonexistent paths — a filesystem with no permission obstructions) and either
value of `verbose`, `rmrf` raises no error to its caller, and its only
filesystem effect is deletion: every surviving entry was already there. -/
theorem rmrf_never_raises (items : Items) (verbose : Bool) (fs : FS) (hb : benign fs) :
    (rmrf items verbose fs).err = none ∧
    ∀ e ∈ (rmrf items verbose fs).fs, e ∈ fs := by
  obtain ⟨h1, h2, _, _, _⟩ := rmrfLoop_spec verbose (normalizeItems items) fs hb
  exact ⟨h1, fun e he => List.Sublist.mem he h2⟩

theorem rmrf_never_raises_witness :
    (rmrf (Items.many [["a"], ["b"]]) true [⟨["a"], EntryKind.file, false⟩]).err = none ∧
    ∀ e ∈ (rmrf (Items.many [["a"], ["b"]]) true [⟨["a"], EntryKind.file, false⟩]).fs,
      e ∈ [⟨["a"], EntryKind.file, false⟩] :=
  rmrf_never_raises (Items.many [["a"], ["b"]]) true [⟨["a"], EntryKind.file, false⟩]
    (by decide)

/-- C3: after `rmrf` returns on a mix of existing files, existing directories
and nonexistent paths, none of the listed paths exists any more, and no error
was raised. -/
theorem rmrf_removes_listed (items : Items) (verbose : Bool) (fs : FS) (hb : benign fs) :
    (rmrf items verbose fs).err = none ∧
    ∀ p ∈ normalizeItems items, ∀ q ∈ (rmrf items verbose fs).fs, q.path ≠ p := by
  obtain ⟨h1, _, _, h4, _⟩ := rmrfLoop_spec verbose (normalizeItems items) fs hb
  exact ⟨h1, h4⟩

theorem rmrf_removes_listed_witness :
    (rmrf (Items.many [["f"], ["d"], ["nope"]]) true
        [⟨["f"], EntryKind.file, false⟩, ⟨["d"], EntryKind.dir, false⟩,
          ⟨["d", "x"], EntryKind.file, false⟩]).err = none ∧
    ∀ p ∈ normalizeItems (Items.many [["f"], ["d"], ["nope"]]),
      ∀ q ∈ (rmrf (Items.many [["f"], ["d"], ["nope"]]) true
          [⟨["f"], EntryKind.file, false⟩, ⟨["d"], EntryKind.dir, false⟩,
            ⟨["d", "x"], EntryKind.file, false⟩]).fs, q.path ≠ p :=
  rmrf_removes_listed (Items.many [["f"], ["d"], ["nope"]]) true
    [⟨["f"], EntryKind.file, false⟩, ⟨["d"], EntryKind.dir, false⟩,
      ⟨["d", "x"], EntryKind.file, false⟩] (by decide)

/-- C4: the two removal attempts of one `rmrf` iteration suppress errors
asymmetrically.  Every failure of the `shutil.rmtree` attempt is suppressed
unconditionally (execution continues on the unchanged filesystem), while the
subsequent `os.remove` attempt suppresses exactly the file-not-found failure:
any other of its failures escapes to the caller. -/
theorem rmrf_suppression_asymmetry (fs : FS) (p : Path) :
    (∀ e, rmtree fs p = Except.error e → rmtreeStep fs p = fs) ∧
    (osRemove (rmtreeStep fs p) p = Except.error OSError.fileNotFound →
      (removeItem fs p).2 = none) ∧
    (∀ e, e ≠ OSError.fileNotFound →
      osRemove (rmtreeStep fs p) p = Except.error e → (removeItem fs p).2 = some e) := by
  refine ⟨?_, ?_, ?_⟩
  · intro e he
    unfold rmtreeStep
    rw [he]
  · intro h
    simp [removeItem, h]
  · intro e hne h
    cases e
    · exact absurd rfl hne
    all_goals simp [removeItem, h]

theorem rmrf_suppression_asymmetry_witness :
    rmtreeStep [⟨["p"], EntryKind.dir, true⟩] ["p"] = [⟨["p"], EntryKind.dir, true⟩] ∧
    (removeItem ([] : FS) ["p"]).2 = none ∧
    (removeItem [⟨["p"], EntryKind.dir, true⟩] ["p"]).2 = some OSError.isADirectory :=
  ⟨(rmrf_suppression_asymmetry [⟨["p"], EntryKind.dir, true⟩] ["p"]).1
      OSError.permissionDenied (by rfl),
    (rmrf_suppression_asymmetry ([] : FS) ["p"]).2.1 (by rfl),
    (rmrf_suppression_asymmetry [⟨["p"], EntryKind.dir, true⟩] ["p"]).2.2
      OSError.isADirectory (by decide) (by rfl)⟩

/-- C5: `rmrf` on a single path string behaves exactly as on the one-element
sequence containing it: same final filesystem, same event trace (deletions and
log output), same raised error. -/
theorem rmrf_single_eq_singleton (p : Path) (verbose : Bool) (fs : FS) :
    rmrf (Items.single p) verbose fs = rmrf (Items.many [p]) verbose fs := rfl

/-- C6: with `verbose=false` the trace holds no log line at all; with
`verbose=true` it holds exactly one log line per input path, in input order,
each immediately before the removal attempt on that path. -/
theorem rmrf_log_lines (items : Items) (fs : FS) (hb : benign fs) :
    (rmrf items false fs).events = (normalizeItems items).map Event.attempt ∧
    (rmrf items true fs).events =
      (normalizeItems items).flatMap
        (fun p => [Event.logLine ("Removing " ++ pathStr p), Event.attempt p]) := by
  obtain ⟨_, _, _, _, h5f⟩ := rmrfLoop_spec false (normalizeItems items) fs hb
  obtain ⟨_, _, _, _, h5t⟩ := rmrfLoop_spec true (normalizeItems items) fs hb
  constructor
  · show (rmrfLoop false fs (normalizeItems items)).events = _
    rw [h5f]
    simp only [Bool.false_eq_true, if_false, List.nil_append]
    exact flatMap_single (normalizeItems items) Event.attempt
  · show (rmrfLoop true fs (normalizeItems items)).events = _
    rw [h5t]
    simp

theorem rmrf_log_lines_witness :
    (rmrf (Items.many [["a"], ["b"]]) false [⟨["a"], EntryKind.dir, false⟩]).events =
      (normalizeItems (Items.many [["a"], ["b"]])).map Event.attempt ∧
    (rmrf (Items.many [["a"], ["b"]]) true [⟨["a"], EntryKind.dir, false⟩]).events =
      (normalizeItems (Items.many [["a"], ["b"]])).flatMap
        (fun p => [Event.logLine ("Removing " ++ pathStr p), Event.attempt p]) :=
  rmrf_log_lines (Items.many [["a"], ["b"]]) [⟨["a"], EntryKind.dir, false⟩] (by decide)

/-- C1: every `clean.*` removal task operates relative to the fixed root
directory `taskRoot` derived from the file location, not relative to the
working directory of the invoker: the outcome of each task is independent of
the invoker working directory, and any entry deleted by any of the six tasks
lies strictly below `taskRoot`. -/
theorem clean_tasks_fixed_root (root cwd cwd' : Path) (fs : FS) :
    (pytest_clean root cwd fs = pytest_clean root cwd' fs ∧
      mypy_clean root cwd fs = mypy_clean root cwd' fs ∧
      build_clean root cwd fs = build_clean root cwd' fs ∧
      dist_clean root cwd fs = dist_clean root cwd' fs ∧
      eggs_clean root cwd fs = eggs_clean root cwd' fs ∧
      pycache_clean root cwd fs = pycache_clean root cwd' fs) ∧
    ∀ e ∈ fs,
      (e ∉ (pytest_clean root cwd fs).fs ∨ e ∉ (mypy_clean root cwd fs).fs ∨
        e ∉ (build_clean root cwd fs).fs ∨ e ∉ (dist_clean root cwd fs).fs ∨
        e ∉ (eggs_clean root cwd fs).fs ∨ e ∉ (pycache_clean root cwd fs).fs) →
      root <+: e.path ∧ root ≠ e.path := by
  refine ⟨⟨rfl, rfl, rfl, rfl, rfl, rfl⟩, ?_⟩
  intro e he hd
  rcases hd with h | h | h | h | h | h
  · exact frame_of_targets (resolveAt_targets root pytest_clean_dirs (by decide)) he h
  · exact frame_of_targets (resolveAt_targets root mypy_clean_dirs (by decide)) he h
  · exact frame_of_targets (resolveAt_targets root [BUILDDIR] (by decide)) he h
  · exact frame_of_targets (resolveAt_targets root [DISTDIR] (by decide)) he h
  · exact frame_of_targets (eggs_targets_bound fs root) he h
  · exact frame_of_targets (pycache_targets_bound fs root) he h

theorem clean_tasks_fixed_root_witness :
    (["r"] : Path) <+: ["r", "build"] ∧ (["r"] : Path) ≠ ["r", "build"] :=
  (clean_tasks_fixed_root ["r"] ["a"] ["b"]
      [⟨["r", "build"], EntryKind.dir, false⟩]).2
    ⟨["r", "build"], EntryKind.dir, false⟩ (by decide)
    (Or.inr (Or.inr (Or.inl (by decide))))

/-- C7: `clean.eggs` removes exactly the `.eggs` entry plus the listed entries
whose names end in `.egg` or `.egg-info`; every entry not at or below one of
those targets is left untouched. -/
theorem eggs_clean_exact (root cwd : Path) (fs : FS) (hb : benign fs) :
    (∀ q ∈ (eggs_clean root cwd fs).fs, q.path ≠ root ++ [".eggs"]) ∧
    (∀ n ∈ listdir fs root,
      (strEndsWith n ".egg-info" || strEndsWith n ".egg") = true →
      ∀ q ∈ (eggs_clean root cwd fs).fs, q.path ≠ root ++ [n]) ∧
    (∀ e ∈ fs, (∀ t ∈ eggs_targets fs root, ¬ t <+: e.path) →
      e ∈ (eggs_clean root cwd fs).fs) := by
  obtain ⟨_, _, _, h4, _⟩ := rmrfLoop_spec true (eggs_targets fs root) fs hb
  refine ⟨?_, ?_, ?_⟩
  · exact h4 _ (List.mem_cons_self _ _)
  · intro n hn hsuf
    exact h4 _
      (List.mem_cons_of_mem _
        (List.mem_map.mpr ⟨n, List.mem_filter.mpr ⟨hn, hsuf⟩, rfl⟩))
  · intro e he ht
    by_contra hd
    obtain ⟨t, htm, htp⟩ := rmrfLoop_frame true (eggs_targets fs root) fs e he hd
    exact ht t htm htp

theorem eggs_clean_exact_witness :
    (∀ q ∈ (eggs_clean [] ["w"]
        [⟨["a.egg-info"], EntryKind.dir, false⟩, ⟨["b.egg"], EntryKind.dir, false⟩,
          ⟨["c.txt"], EntryKind.file, false⟩]).fs,
      q.path ≠ [] ++ ["a.egg-info"]) ∧
    (⟨["c.txt"], EntryKind.file, false⟩ : Entry) ∈
      (eggs_clean [] ["w"]
        [⟨["a.egg-info"], EntryKind.dir, false⟩, ⟨["b.egg"], EntryKind.dir, false⟩,
          ⟨["c.txt"], EntryKind.file, false⟩]).fs :=
  ⟨(eggs_clean_exact [] ["w"]
        [⟨["a.egg-info"], EntryKind.dir, false⟩, ⟨["b.egg"], EntryKind.dir, false⟩,
          ⟨["c.txt"], EntryKind.file, false⟩] (by decide)).2.1
      "a.egg-info" (by decide) (by decide),
    (eggs_clean_exact [] ["w"]
        [⟨["a.egg-info"], EntryKind.dir, false⟩, ⟨["b.egg"], EntryKind.dir, false⟩,
          ⟨["c.txt"], EntryKind.file, false⟩] (by decide)).2.2
      ⟨["c.txt"], EntryKind.file, false⟩ (by decide) (by decide)⟩

/-- C8: `clean.pycache` removes every directory named `__pycache__` at any
depth strictly below the root, and anything it deletes lies at or below one
of those `__pycache__` directories — it removes no other directory. -/
theorem pycache_clean_exact (root cwd : Path) (fs : FS) (hb : benign fs) :
    (∀ e ∈ fs, e.kind = EntryKind.dir → root <+: e.path →
      root.length < e.path.length → e.path.getLast? = some "__pycache__" →
      ∀ q ∈ (pycache_clean root cwd fs).fs, q.path ≠ e.path) ∧
    (∀ e ∈ fs, e ∉ (pycache_clean root cwd fs).fs →
      ∃ t ∈ pycache_targets fs root, t <+: e.path) := by
  obtain ⟨_, _, _, h4, _⟩ := rmrfLoop_spec false (pycache_targets fs root) fs hb
  refine ⟨?_, ?_⟩
  · intro e he hk hpre hlen hlast
    refine h4 e.path ?_
    refine List.mem_map.mpr ⟨e, List.mem_filter.mpr ⟨he, ?_⟩, rfl⟩
    have h1 : root.isPrefixOf e.path = true := isPrefixOf_eq_true.mpr hpre
    simp [hk, hlen, hlast, h1]
  · intro e he hd
    exact rmrfLoop_frame false (pycache_targets fs root) fs e he hd

theorem pycache_clean_exact_witness :
    (∀ q ∈ (pycache_clean [] ["w"]
        [⟨["a"], EntryKind.dir, false⟩, ⟨["a", "__pycache__"], EntryKind.dir, false⟩,
          ⟨["a", "__pycache__", "m.pyc"], EntryKind.file, false⟩,
          ⟨["b"], EntryKind.file, false⟩]).fs,
      q.path ≠ ["a", "__pycache__"]) ∧
    ∃ t ∈ pycache_targets
        [⟨["a"], EntryKind.dir, false⟩, ⟨["a", "__pycache__"], EntryKind.dir, false⟩,
          ⟨["a", "__pycache__", "m.pyc"], EntryKind.file, false⟩,
          ⟨["b"], EntryKind.file, false⟩] [],
      t <+: ["a", "__pycache__", "m.pyc"] :=
  ⟨(pycache_clean_exact [] ["w"]
        [⟨["a"], EntryKind.dir, false⟩, ⟨["a", "__pycache__"], EntryKind.dir, false⟩,
          ⟨["a", "__pycache__", "m.pyc"], EntryKind.file, false⟩,
          ⟨["b"], EntryKind.file, false⟩] (by decide)).1
      ⟨["a", "__pycache__"], EntryKind.dir, false⟩ (by decide) (by decide) (by decide)
      (by decide) (by decide),
    (pycache_clean_exact [] ["w"]
        [⟨["a"], EntryKind.dir, false⟩, ⟨["a", "__pycache__"], EntryKind.dir, false⟩,
          ⟨["a", "__pycache__", "m.pyc"], EntryKind.file, false⟩,
          ⟨["b"], EntryKind.file, false⟩] (by decide)).2
      ⟨["a", "__pycache__", "m.pyc"], EntryKind.file, false⟩ (by decide) (by decide)⟩

/-- C9: `clean.all` — the default task of the clean namespace — has as
prerequisites exactly the tasks registered in the clean namespace
(`clean.pytest`, `clean.mypy`, `clean.build`, `clean.dist`, `clean.eggs`,
`clean.pycache`), so invoking it runs each of them, in registration order;
its own body performs no further effect. -/
theorem clean_all_runs_all :
    clean_all_def.pre = ["pytest", "mypy", "build", "dist", "eggs", "pycache"] ∧
    clean_all_def.pre = namespace_clean6.tasks.map Prod.fst ∧
    clean_all_def.dflt = true ∧
    (∀ root cwd fs, clean_all root cwd fs = ⟨fs, [], none⟩) ∧
    (∀ root cwd fs, run_clean_all root cwd fs =
      (pycache_clean root cwd
        ((eggs_clean root cwd
          ((dist_clean root cwd
            ((build_clean root cwd
              ((mypy_clean root cwd
                ((pytest_clean root cwd fs).fs)).fs)).fs)).fs)).fs)).fs) := by
  refine ⟨rfl, rfl, rfl, fun root cwd fs => rfl, fun root cwd fs => ?_⟩
  have hstep : ∀ (n : String) (rest : List String) (fs1 : FS),
      runTasks root cwd (n :: rest) fs1 =
        runTasks root cwd rest (cleanTaskRun n root cwd fs1).fs :=
    fun _ _ _ => rfl
  have hbase : ∀ fs1 : FS, runTasks root cwd [] fs1 = fs1 := fun _ => rfl
  have h1 : ∀ fs1 : FS, cleanTaskRun "pytest" root cwd fs1 = pytest_clean root cwd fs1 :=
    fun _ => rfl
  have h2 : ∀ fs1 : FS, cleanTaskRun "mypy" root cwd fs1 = mypy_clean root cwd fs1 :=
    fun _ => rfl
  have h3 : ∀ fs1 : FS, cleanTaskRun "build" root cwd fs1 = build_clean root cwd fs1 :=
    fun _ => rfl
  have h4 : ∀ fs1 : FS, cleanTaskRun "dist" root cwd fs1 = dist_clean root cwd fs1 :=
    fun _ => rfl
  have h5 : ∀ fs1 : FS, cleanTaskRun "eggs" root cwd fs1 = eggs_clean root cwd fs1 :=
    fun _ => rfl
  have h6 : ∀ fs1 : FS, cleanTaskRun "pycache" root cwd fs1 = pycache_clean root cwd fs1 :=
    fun _ => rfl
  have hrw : run_clean_all root cwd fs = runTasks root cwd clean_all_def.pre fs := by
    simp only [run_clean_all, clean_all]
  rw [hrw,
    show clean_all_def.pre = ["pytest", "mypy", "build", "dist", "eggs", "pycache"] from rfl,
    hstep, hstep, hstep, hstep, hstep, hstep, hbase, h1, h2, h3, h4, h5, h6]

/-- C10: only the body of the `mypy` task mutates the task registry — it re-adds
the `mypy` task to the default namespace after its command completes — and
the body of every other task applies no registry operation at all. -/
theorem mypy_mutates_registry (c : Collection) :
    bodyRegistryOps TaskId.mypy = [RegistryOp.addTask mypy_def "mypy"] ∧
    applyRegistryOps c (bodyRegistryOps TaskId.mypy) ≠ c ∧
    ∀ t : TaskId, t ≠ TaskId.mypy → applyRegistryOps c (bodyRegistryOps t) = c := by
  refine ⟨rfl, ?_, ?_⟩
  · intro h
    have hlen := congrArg (fun col => col.tasks.length) h
    simp only [applyRegistryOps, bodyRegistryOps, List.foldl_cons, List.foldl_nil,
      applyRegistryOp, Collection.add_task, List.length_append, List.length_cons,
      List.length_nil] at hlen
    omega
  · intro t ht
    cases t <;> first | exact absurd rfl ht | rfl

theorem mypy_mutates_registry_witness :
    bodyRegistryOps TaskId.mypy = [RegistryOp.addTask mypy_def "mypy"] ∧
    applyRegistryOps ⟨[]⟩ (bodyRegistryOps TaskId.mypy) ≠ ⟨[]⟩ ∧
    applyRegistryOps ⟨[]⟩ (bodyRegistryOps TaskId.pytest) = ⟨[]⟩ :=
  ⟨(mypy_mutates_registry ⟨[]⟩).1, (mypy_mutates_registry ⟨[]⟩).2.1,
    (mypy_mutates_registry ⟨[]⟩).2.2 TaskId.pytest (by decide)⟩

end Tasks
